import Mathlib

/-!
Verification of the obsidian-annotation plugin core.

Shallow embedding of the plugin's parsing and decoration engine:
strings are `List Char`, document offsets are `Nat`.

The embedded functions mirror, definition by definition:
  * `src/parser.ts` — the regexes `COMMENT_REGEX = /==([\s\S]*?)::([\s\S]*?)==/g`
    and `MASK_REGEX = /~=([\s\S]*?)=~/g` together with the `exec` loops of
    `parseAnnotationsFromLine`, and the newline-splitting `parseAnnotations`;
  * `src/editorExtension.ts` — `collectAnnotations` and `buildDecorations`
    (the `editorLivePreviewField` read is modelled as an `Option Bool`:
    `none` models the field access throwing, which the source catches);
  * `src/main.ts` — the insertion strings of the two editor commands;
  * `src/tooltipWidget.ts` — the pure decision logic of `saveChanges` and the
    text replacement issued by the `onSave` callback.

JavaScript regex semantics of `==([\s\S]*?)::([\s\S]*?)==`, made explicit:
a match starting at `m` requires `==` at `m`, then the non-greedy first
group runs to the FIRST occurrence of `::` at some `p ≥ m+2`, and the
second group runs to the FIRST occurrence of `==` at some `q ≥ p+2`
(backtracking to a later `::` can never succeed when the first one fails,
because a closing `==` after a later separator also lies after the first
one).  `exec` with the `g` flag resumes searching at the end of the
previous match, so successive matches never overlap.
-/

/-- Annotation kind: the discriminant of the `Annotation` union in
`src/types.ts` (`type: 'comment' | 'mask'`). -/
inductive AnnKind where
  | comment
  | mask
deriving DecidableEq, Repr

/-- An `Annotation` record from `src/types.ts`.  `from`/`to` bound the
visible payload, `syntaxFrom`/`syntaxTo` the whole matched syntax.  The
`comment` field carries the note text for comment annotations and is `[]`
for masks (the TypeScript mask variant simply lacks the field). -/
structure Ann where
  kind : AnnKind
  from_ : Nat
  to_ : Nat
  comment : List Char
  syntaxFrom : Nat
  syntaxTo : Nat
deriving DecidableEq, Repr

/-- The opening/closing comment marker `==`. -/
def commentOpen : List Char := ['=', '=']

/-- The comment separator `::`. -/
def commentSep : List Char := [':', ':']

/-- The opening mask marker `~=`. -/
def maskOpen : List Char := ['~', '=']

/-- The closing mask marker `=~`. -/
def maskClose : List Char := ['=', '~']

/-- `occursAt pat s i`: the pattern occurs in `s` starting at index `i`. -/
def occursAt (pat s : List Char) (i : Nat) : Bool :=
  pat.isPrefixOf (s.drop i)

/-- Index of the first occurrence of `pat` in `u` (from the start). -/
def firstMatchPos (pat : List Char) : List Char → Option Nat
  | [] => if pat.isPrefixOf ([] : List Char) then some 0 else none
  | c :: rest =>
    if pat.isPrefixOf (c :: rest) then some 0
    else (firstMatchPos pat rest).map (· + 1)

/-- Index of the first occurrence of `pat` in `s` at position `≥ i`. -/
def findFrom (pat s : List Char) (i : Nat) : Option Nat :=
  (firstMatchPos pat (s.drop i)).map (· + i)

/-- The slice `s[a..b)`, modelling a JavaScript capture group / `slice`. -/
def extract (s : List Char) (a b : Nat) : List Char :=
  (s.drop a).take (b - a)

/-- Attempt of `COMMENT_REGEX` to match at position `m`: needs `==` at `m`,
then the first `::` at some `p ≥ m+2` (end of the non-greedy first group),
then the first `==` at some `q ≥ p+2` (end of the non-greedy second
group).  Returns `(p, q)` on success; the full match is `[m, q+2)`. -/
def commentMatchAt (s : List Char) (m : Nat) : Option (Nat × Nat) :=
  if occursAt commentOpen s m then
    match findFrom commentSep s (m + 2) with
    | some p =>
      match findFrom commentOpen s (p + 2) with
      | some q => some (p, q)
      | none => none
    | none => none
  else none

/-- Search for the first comment match at position `≥ i` (fuelled). -/
def commentSearchAux (s : List Char) : Nat → Nat → Option (Nat × Nat × Nat)
  | _, 0 => none
  | i, fuel + 1 =>
    match commentMatchAt s i with
    | some (p, q) => some (i, p, q)
    | none => commentSearchAux s (i + 1) fuel

/-- First comment match at position `≥ i`, as `(start, sepPos, closePos)`. -/
def commentSearch (s : List Char) (i : Nat) : Option (Nat × Nat × Nat) :=
  commentSearchAux s i (s.length + 1 - i)

/-- One step of the comment `exec` loop body of `parseAnnotationsFromLine`:
builds the `Annotation` record exactly as the source does. -/
def mkCommentAnn (s : List Char) (offset m p q : Nat) : Ann :=
  let fullMatchStart := offset + m
  let fullMatchEnd := fullMatchStart + (q + 2 - m)
  let comment := extract s (m + 2) p
  let text := extract s (p + 2) q
  let prefixLen := 2 + comment.length + 2
  let textFrom := fullMatchStart + prefixLen
  let textTo := textFrom + text.length
  { kind := .comment, from_ := textFrom, to_ := textTo, comment := comment,
    syntaxFrom := fullMatchStart, syntaxTo := fullMatchEnd }

/-- The comment `exec` loop of `parseAnnotationsFromLine`: repeatedly find
the next match and resume at its end (`lastIndex` semantics).  Fuelled;
every match advances the position by at least 6 characters, so
`s.length + 1` fuel is always sufficient. -/
def commentScanAux (s : List Char) (offset : Nat) : Nat → Nat → List Ann
  | _, 0 => []
  | i, fuel + 1 =>
    match commentSearch s i with
    | none => []
    | some (m, p, q) =>
      mkCommentAnn s offset m p q :: commentScanAux s offset (q + 2) fuel

/-- All comment matches of a line, in match order. -/
def commentScan (s : List Char) (offset : Nat) : List Ann :=
  commentScanAux s offset 0 (s.length + 1)

/-- Attempt of `MASK_REGEX` to match at position `m`: needs `~=` at `m`,
then the first `=~` at some `q ≥ m+2`.  The full match is `[m, q+2)`. -/
def maskMatchAt (s : List Char) (m : Nat) : Option Nat :=
  if occursAt maskOpen s m then findFrom maskClose s (m + 2) else none

/-- Search for the first mask match at position `≥ i` (fuelled). -/
def maskSearchAux (s : List Char) : Nat → Nat → Option (Nat × Nat)
  | _, 0 => none
  | i, fuel + 1 =>
    match maskMatchAt s i with
    | some q => some (i, q)
    | none => maskSearchAux s (i + 1) fuel

/-- First mask match at position `≥ i`, as `(start, closePos)`. -/
def maskSearch (s : List Char) (i : Nat) : Option (Nat × Nat) :=
  maskSearchAux s i (s.length + 1 - i)

/-- One step of the mask `exec` loop body of `parseAnnotationsFromLine`. -/
def mkMaskAnn (s : List Char) (offset m q : Nat) : Ann :=
  let fullMatchStart := offset + m
  let fullMatchEnd := fullMatchStart + (q + 2 - m)
  let text := extract s (m + 2) q
  let textFrom := fullMatchStart + 2
  let textTo := textFrom + text.length
  { kind := .mask, from_ := textFrom, to_ := textTo, comment := [],
    syntaxFrom := fullMatchStart, syntaxTo := fullMatchEnd }

/-- The mask `exec` loop of `parseAnnotationsFromLine`. -/
def maskScanAux (s : List Char) (offset : Nat) : Nat → Nat → List Ann
  | _, 0 => []
  | i, fuel + 1 =>
    match maskSearch s i with
    | none => []
    | some (m, q) =>
      mkMaskAnn s offset m q :: maskScanAux s offset (q + 2) fuel

/-- All mask matches of a line, in match order. -/
def maskScan (s : List Char) (offset : Nat) : List Ann :=
  maskScanAux s offset 0 (s.length + 1)

/-- `parseAnnotationsFromLine` from `src/parser.ts`: the comment loop runs
first and pushes all its results, then the mask loop pushes all of its
results — so the returned list is all comments followed by all masks. -/
def parseAnnotationsFromLine (lineText : List Char) (offset : Nat) : List Ann :=
  commentScan lineText offset ++ maskScan lineText offset

/-- `docText.split('\n')` (JavaScript semantics: `"".split('\n') = [""]`,
a trailing newline yields a trailing empty line). -/
def splitNl : List Char → List (List Char)
  | [] => [[]]
  | c :: rest =>
    if c = '\n' then [] :: splitNl rest
    else
      match splitNl rest with
      | [] => [[c]]
      | l :: ls => (c :: l) :: ls

/-- The per-line fold of `parseAnnotations` / `collectAnnotations`:
parse each line at a running offset, advancing by `line.length + 1`
(the `+1` for the consumed newline). -/
def parseLines : List (List Char) → Nat → List Ann
  | [], _ => []
  | l :: ls, offset =>
    parseAnnotationsFromLine l offset ++ parseLines ls (offset + l.length + 1)

/-- `parseAnnotations` from `src/parser.ts`: split the whole document at
every newline and parse the pieces line by line. -/
def parseAnnotations (docText : List Char) : List Ann :=
  parseLines (splitNl docText) 0

/-- `view.state.sliceDoc(from, to)`: the document slice `[f, t)`. -/
def sliceDoc (docText : List Char) (f t : Nat) : List Char :=
  (docText.take t).drop f

/-- Stable insertion of an annotation into a list sorted by `syntaxFrom`
(an element goes before the first strictly greater key, hence after all
ties, matching JavaScript's stable `Array.prototype.sort`). -/
def insertAnn (x : Ann) : List Ann → List Ann
  | [] => [x]
  | y :: ys =>
    if y.syntaxFrom < x.syntaxFrom then y :: insertAnn x ys else x :: y :: ys

/-- Stable sort by `syntaxFrom`, modelling
`annotations.sort((a, b) => a.syntaxFrom - b.syntaxFrom)`. -/
def sortAnns : List Ann → List Ann
  | [] => []
  | x :: xs => insertAnn x (sortAnns xs)

/-- `collectAnnotations` from `src/editorExtension.ts`: for each visible
range, slice the document, split the slice at newlines, parse each line at
its running absolute offset; finally sort everything by `syntaxFrom`. -/
def collectAnnotations (docText : List Char) (visibleRanges : List (Nat × Nat)) : List Ann :=
  sortAnns ((visibleRanges.map (fun r => parseLines (splitNl (sliceDoc docText r.1 r.2)) r.1)).flatten)

/-- `AnnotationPluginSettings` from `src/types.ts`. -/
structure AnnotationPluginSettings where
  commentHighlightColor : String
  maskBlurAmount : Nat
  tooltipBgColor : String
  tooltipTextColor : String
deriving DecidableEq, Repr

/-- `DEFAULT_SETTINGS` from `src/types.ts`. -/
def DEFAULT_SETTINGS : AnnotationPluginSettings :=
  { commentHighlightColor := "#fff3a380", maskBlurAmount := 5,
    tooltipBgColor := "#1e1e2e", tooltipTextColor := "#cdd6f4" }

/-- A decoration value passed to `builder.add`: a zero-width replacement
by `HiddenMarkerWidget`, a comment highlight mark carrying the note text
in its `data-annotation-comment` attribute, or a mask blur mark. -/
inductive Deco where
  | hiddenMarker
  | markComment (note : List Char)
  | markMask
deriving DecidableEq, Repr

/-- One `builder.add(from, to, deco)` call. -/
structure Directive where
  dFrom : Nat
  dTo : Nat
  deco : Deco
deriving DecidableEq, Repr

/-- The cursor-inside test used (identically) by both branches of
`buildDecorations`: some selection range `[from, to]` satisfies
`range.from >= ann.syntaxFrom && range.to <= ann.syntaxTo`. -/
def cursorInside (selection : List (Nat × Nat)) (ann : Ann) : Bool :=
  selection.any (fun range => ann.syntaxFrom ≤ range.1 && range.2 ≤ ann.syntaxTo)

/-- The `builder.add` calls one annotation contributes in
`buildDecorations`, in source order. -/
def annDecos (isLivePreview : Bool) (selection : List (Nat × Nat)) (ann : Ann) : List Directive :=
  match ann.kind with
  | .comment =>
    if isLivePreview then
      if !cursorInside selection ann then
        [⟨ann.syntaxFrom, ann.from_, .hiddenMarker⟩,
         ⟨ann.from_, ann.to_, .markComment ann.comment⟩,
         ⟨ann.to_, ann.syntaxTo, .hiddenMarker⟩]
      else
        [⟨ann.from_, ann.to_, .markComment ann.comment⟩]
    else
      [⟨ann.from_, ann.to_, .markComment ann.comment⟩]
  | .mask =>
    if isLivePreview then
      if !cursorInside selection ann then
        [⟨ann.syntaxFrom, ann.from_, .hiddenMarker⟩,
         ⟨ann.from_, ann.to_, .markMask⟩,
         ⟨ann.to_, ann.syntaxTo, .hiddenMarker⟩]
      else
        [⟨ann.from_, ann.to_, .markMask⟩]
    else
      [⟨ann.from_, ann.to_, .markMask⟩]

/-- `buildDecorations` from `src/editorExtension.ts`.  `lpField` models
the `editorLivePreviewField` state read: `none` models the read throwing,
which the source catches, defaulting `isLivePreview` to `false`.  The
`settings` parameter is received (as in the source) but never read. -/
def buildDecorations (settings : AnnotationPluginSettings) (lpField : Option Bool)
    (selection : List (Nat × Nat)) (annotations : List Ann) : List Directive :=
  let isLivePreview := match lpField with | some b => b | none => false
  (annotations.map (annDecos isLivePreview selection)).flatten

/-- The text inserted by the `add-mask-to-selection` command in
`src/main.ts`: `` `~=${selection}=~` ``. -/
def wrapMask (selection : List Char) : List Char :=
  maskOpen ++ selection ++ maskClose

/-- The placeholder label `批注` inserted by `add-comment-to-selection`. -/
def commentPlaceholder : List Char := ['批', '注']

/-- The text inserted by the `add-comment-to-selection` command in
`src/main.ts`: `` `=${selection}::批注=` `` — note the single `=` on each
side. -/
def wrapComment (selection : List Char) : List Char :=
  '=' :: selection ++ (commentSep ++ commentPlaceholder ++ ['='])

/-- Whitespace predicate for trimming, modelling
`String.prototype.trim`. -/
def isJsSpace (c : Char) : Bool :=
  c = ' ' || c = '\t' || c = '\n' || c = '\r' || c = '\x0b' || c = '\x0c'

/-- `input.value.trim()`. -/
def trimJs (s : List Char) : List Char :=
  ((s.dropWhile isJsSpace).reverse.dropWhile isJsSpace).reverse

/-- The `saveChanges` closure of `enterEditMode` in `src/tooltipWidget.ts`:
trims the textarea content; if the result is non-empty and differs from
the initial comment, the edit callback is invoked with it (first
component `some newVal`) and it becomes the displayed text; otherwise no
callback runs (`none`) and the prior content is kept displayed. -/
def saveChanges (initialComment rawInput : List Char) : Option (List Char) × List Char :=
  let newVal := trimJs rawInput
  if newVal ≠ [] ∧ newVal ≠ initialComment then (some newVal, newVal)
  else (none, initialComment)

/-- The `onSave` callback wired up in `createAnnotationEditorExtension`
(`src/editorExtension.ts`): dispatch one change replacing
`[ann.syntaxFrom, ann.from)` with `` `==${newComment}::` ``, returned
here as `(from, to, insert)`. -/
def onSaveChange (ann : Ann) (newComment : List Char) : Nat × Nat × List Char :=
  (ann.syntaxFrom, ann.from_, commentOpen ++ newComment ++ commentSep)

/-- Apply a single text replacement `(f, t, ins)` to a document. -/
def applyEdit (docText : List Char) (f t : Nat) (ins : List Char) : List Char :=
  docText.take f ++ ins ++ docText.drop t

/-- Two half-open syntax spans overlap. -/
def spansOverlap (a b : Ann) : Prop :=
  max a.syntaxFrom b.syntaxFrom < min a.syntaxTo b.syntaxTo

instance (a b : Ann) : Decidable (spansOverlap a b) := by
  unfold spansOverlap; infer_instance

/-! ### Occurrence machinery -/

theorem occursAt_drop (pat s : List Char) (i k : Nat) :
    occursAt pat (s.drop i) k = occursAt pat s (i + k) := by
  unfold occursAt
  rw [List.drop_drop]

theorem occursAt_pair (a b : Char) (w : List Char) (k : Nat) :
    occursAt [a, b] w k = true ↔ (w[k]? = some a ∧ w[k + 1]? = some b) := by
  unfold occursAt
  have h0 : w[k]? = (w.drop k)[0]? := by rw [List.getElem?_drop, Nat.add_zero]
  have h1 : w[k + 1]? = (w.drop k)[1]? := by rw [List.getElem?_drop]
  rw [h0, h1]
  cases hd : w.drop k with
  | nil => simp [List.isPrefixOf]
  | cons x rest =>
    cases rest with
    | nil => simp [List.isPrefixOf]
    | cons y rest' =>
      simp only [List.isPrefixOf, Bool.and_eq_true, List.isPrefixOf_nil_left,
        List.getElem?_cons_zero, List.getElem?_cons_succ, Option.some_inj, beq_iff_eq,
        and_true]
      constructor
      · rintro ⟨rfl, rfl⟩
        exact ⟨rfl, rfl⟩
      · rintro ⟨rfl, rfl⟩
        exact ⟨rfl, rfl⟩

theorem occursAt_boundary (pat X Y : List Char) :
    occursAt pat (X ++ pat ++ Y) X.length = true := by
  unfold occursAt
  rw [List.append_assoc, List.drop_left]
  exact List.isPrefixOf_iff_prefix.mpr (List.prefix_append pat Y)

theorem occursAt_length_le {pat s : List Char} {i : Nat} (hpat : pat ≠ [])
    (h : occursAt pat s i = true) : i + pat.length ≤ s.length := by
  unfold occursAt at h
  have hpre := List.isPrefixOf_iff_prefix.mp h
  have hlen := hpre.length_le
  rw [List.length_drop] at hlen
  by_cases hi : i ≤ s.length
  · omega
  · exfalso
    have hnil : s.drop i = [] := by
      apply List.drop_eq_nil_of_le
      omega
    rw [hnil, List.prefix_nil] at hpre
    exact hpat hpre

theorem occursAt_ge_length {pat s : List Char} {i : Nat} (hpat : pat ≠ [])
    (h : s.length ≤ i) : occursAt pat s i = false := by
  cases h' : occursAt pat s i with
  | false => rfl
  | true =>
    have := occursAt_length_le hpat h'
    have hp : 0 < pat.length := List.length_pos.mpr hpat
    omega

theorem extract_boundary (X mid Y : List Char) :
    extract (X ++ mid ++ Y) X.length (X.length + mid.length) = mid := by
  unfold extract
  rw [List.append_assoc, List.drop_left]
  have : X.length + mid.length - X.length = mid.length := by omega
  rw [this, List.take_left]

/-! ### `firstMatchPos` / `findFrom` characterization -/

theorem fmp_mem {pat : List Char} :
    ∀ {u : List Char} {j : Nat}, firstMatchPos pat u = some j → occursAt pat u j = true := by
  intro u
  induction u with
  | nil =>
    intro j h
    unfold firstMatchPos at h
    split at h
    · rename_i hp
      injection h with h
      subst h
      simpa [occursAt] using hp
    · exact absurd h (by simp)
  | cons c rest ih =>
    intro j h
    unfold firstMatchPos at h
    split at h
    · rename_i hp
      injection h with h
      subst h
      simpa [occursAt] using hp
    · rename_i hp
      rcases Option.map_eq_some'.mp h with ⟨j', hj', rfl⟩
      have := ih hj'
      simpa [occursAt, List.drop_succ_cons] using this

theorem fmp_first {pat : List Char} :
    ∀ {u : List Char} {j : Nat}, occursAt pat u j = true →
      (∀ k, k < j → occursAt pat u k = false) → firstMatchPos pat u = some j := by
  intro u
  induction u with
  | nil =>
    intro j h hmin
    have hj : j = 0 := by
      by_contra hj0
      have h0 := hmin 0 (by omega)
      simp [occursAt] at h0 h
      rw [h] at h0
      exact absurd h0 (by simp)
    subst hj
    unfold firstMatchPos
    simp [occursAt] at h
    simp [h]
  | cons c rest ih =>
    intro j h hmin
    unfold firstMatchPos
    cases j with
    | zero =>
      simp [occursAt] at h
      simp [h]
    | succ j' =>
      have h0 : occursAt pat (c :: rest) 0 = false := hmin 0 (by omega)
      simp [occursAt] at h0
      rw [if_neg (by simp [h0])]
      have hrest : occursAt pat rest j' = true := by
        simpa [occursAt, List.drop_succ_cons] using h
      have hminrest : ∀ k, k < j' → occursAt pat rest k = false := by
        intro k hk
        have := hmin (k + 1) (by omega)
        simpa [occursAt, List.drop_succ_cons] using this
      rw [ih hrest hminrest]
      rfl

theorem fmp_none {pat : List Char} :
    ∀ {u : List Char}, (∀ k, occursAt pat u k = false) → firstMatchPos pat u = none := by
  intro u
  induction u with
  | nil =>
    intro h
    have := h 0
    simp [occursAt] at this
    unfold firstMatchPos
    simp [this]
  | cons c rest ih =>
    intro h
    unfold firstMatchPos
    have h0 := h 0
    simp [occursAt] at h0
    rw [if_neg (by simp [h0])]
    have : ∀ k, occursAt pat rest k = false := by
      intro k
      have := h (k + 1)
      simpa [occursAt, List.drop_succ_cons] using this
    rw [ih this]
    rfl

theorem findFrom_some_elim {pat s : List Char} {i j : Nat}
    (h : findFrom pat s i = some j) : i ≤ j ∧ occursAt pat s j = true := by
  unfold findFrom at h
  rcases Option.map_eq_some'.mp h with ⟨j', hj', rfl⟩
  have := fmp_mem hj'
  rw [occursAt_drop] at this
  constructor
  · omega
  · have : occursAt pat s (i + j') = true := this
    simpa [Nat.add_comm] using this

theorem findFrom_intro {pat s : List Char} {i j : Nat} (hij : i ≤ j)
    (h : occursAt pat s j = true)
    (hmin : ∀ k, i ≤ k → k < j → occursAt pat s k = false) :
    findFrom pat s i = some j := by
  unfold findFrom
  have h1 : occursAt pat (s.drop i) (j - i) = true := by
    rw [occursAt_drop]
    have : i + (j - i) = j := by omega
    rw [this]
    exact h
  have h2 : ∀ k, k < j - i → occursAt pat (s.drop i) k = false := by
    intro k hk
    rw [occursAt_drop]
    exact hmin (i + k) (by omega) (by omega)
  rw [fmp_first h1 h2]
  simp
  omega

theorem findFrom_none_intro {pat s : List Char} {i : Nat}
    (h : ∀ k, i ≤ k → occursAt pat s k = false) : findFrom pat s i = none := by
  unfold findFrom
  rw [fmp_none]
  · rfl
  · intro k
    rw [occursAt_drop]
    exact h (i + k) (by omega)

/-! ### Comment match / search / scan lemmas -/

theorem commentMatchAt_elim {s : List Char} {m p q : Nat}
    (h : commentMatchAt s m = some (p, q)) :
    occursAt commentOpen s m = true ∧ findFrom commentSep s (m + 2) = some p ∧
      findFrom commentOpen s (p + 2) = some q := by
  unfold commentMatchAt at h
  split at h
  · rename_i hocc
    cases hsep : findFrom commentSep s (m + 2) with
    | none => simp [hsep] at h
    | some p' =>
      simp only [hsep] at h
      cases hcl : findFrom commentOpen s (p' + 2) with
      | none => simp [hcl] at h
      | some q' =>
        simp only [hcl, Option.some_inj, Prod.mk.injEq] at h
        obtain ⟨h1, h2⟩ := h
        refine ⟨hocc, ?_, ?_⟩
        · rw [h1]
        · rw [← h1, hcl, h2]
  · exact absurd h (by simp)

theorem commentMatchAt_bounds {s : List Char} {m p q : Nat}
    (h : commentMatchAt s m = some (p, q)) :
    m + 2 ≤ p ∧ p + 2 ≤ q ∧ q + 2 ≤ s.length := by
  obtain ⟨h1, h2, h3⟩ := commentMatchAt_elim h
  obtain ⟨hp, _⟩ := findFrom_some_elim h2
  obtain ⟨hq, hqo⟩ := findFrom_some_elim h3
  have := occursAt_length_le (by simp [commentOpen]) hqo
  simp [commentOpen] at this
  exact ⟨hp, hq, by omega⟩

theorem commentMatchAt_none_of_not_open {s : List Char} {m : Nat}
    (h : occursAt commentOpen s m = false) : commentMatchAt s m = none := by
  unfold commentMatchAt
  simp [h]

theorem commentMatchAt_none_of_ge_length {s : List Char} {m : Nat}
    (h : s.length ≤ m) : commentMatchAt s m = none :=
  commentMatchAt_none_of_not_open (occursAt_ge_length (by simp [commentOpen]) h)

theorem commentSearchAux_elim {s : List Char} :
    ∀ {fuel i m p q : Nat}, commentSearchAux s i fuel = some (m, p, q) →
      i ≤ m ∧ commentMatchAt s m = some (p, q) := by
  intro fuel
  induction fuel with
  | zero => intro i m p q h; exact absurd h (by simp [commentSearchAux])
  | succ fuel ih =>
    intro i m p q h
    unfold commentSearchAux at h
    cases hm : commentMatchAt s i with
    | some r =>
      rw [hm] at h
      obtain ⟨p', q'⟩ := r
      injection h with h
      injection h with h1 h2
      subst h1
      injection h2 with h2a h2b
      subst h2a; subst h2b
      exact ⟨Nat.le_refl _, hm⟩
    | none =>
      rw [hm] at h
      obtain ⟨h1, h2⟩ := ih h
      exact ⟨by omega, h2⟩

theorem commentSearchAux_intro {s : List Char} {m p q : Nat}
    (hm : commentMatchAt s m = some (p, q)) :
    ∀ {fuel i : Nat}, i ≤ m → m < i + fuel →
      (∀ k, i ≤ k → k < m → commentMatchAt s k = none) →
      commentSearchAux s i fuel = some (m, p, q) := by
  intro fuel
  induction fuel with
  | zero => intro i h1 h2 _; omega
  | succ fuel ih =>
    intro i h1 h2 hmin
    unfold commentSearchAux
    rcases Nat.eq_or_lt_of_le h1 with rfl | hlt
    · rw [hm]
    · rw [hmin i (Nat.le_refl _) hlt]
      exact ih hlt (by omega) (fun k hk1 hk2 => hmin k (by omega) hk2)

theorem commentSearchAux_none {s : List Char} :
    ∀ {fuel i : Nat}, (∀ k, i ≤ k → commentMatchAt s k = none) →
      commentSearchAux s i fuel = none := by
  intro fuel
  induction fuel with
  | zero => intro i _; rfl
  | succ fuel ih =>
    intro i h
    unfold commentSearchAux
    rw [h i (Nat.le_refl _)]
    exact ih (fun k hk => h k (by omega))

theorem commentSearch_elim {s : List Char} {i m p q : Nat}
    (h : commentSearch s i = some (m, p, q)) :
    i ≤ m ∧ commentMatchAt s m = some (p, q) :=
  commentSearchAux_elim h

theorem commentSearch_intro {s : List Char} {i m p q : Nat}
    (hm : commentMatchAt s m = some (p, q)) (h1 : i ≤ m)
    (hmin : ∀ k, i ≤ k → k < m → commentMatchAt s k = none) :
    commentSearch s i = some (m, p, q) := by
  obtain ⟨_, _, hq⟩ := commentMatchAt_bounds hm
  exact commentSearchAux_intro hm h1 (by omega) hmin

theorem commentSearch_none {s : List Char} {i : Nat}
    (h : ∀ k, i ≤ k → commentMatchAt s k = none) : commentSearch s i = none :=
  commentSearchAux_none h

theorem mkCommentAnn_fields {s : List Char} {m p q : Nat} (offset : Nat)
    (hmp : m + 2 ≤ p) (hpq : p + 2 ≤ q) :
    (mkCommentAnn s offset m p q).syntaxFrom = offset + m ∧
    (mkCommentAnn s offset m p q).syntaxTo = offset + q + 2 ∧
    (mkCommentAnn s offset m p q).kind = AnnKind.comment := by
  unfold mkCommentAnn
  refine ⟨rfl, ?_, rfl⟩
  simp only
  omega

theorem commentScanAux_bounds {s : List Char} {offset : Nat} :
    ∀ {fuel i : Nat} {a : Ann}, a ∈ commentScanAux s offset i fuel →
      offset + i ≤ a.syntaxFrom ∧ a.syntaxFrom + 6 ≤ a.syntaxTo ∧
        a.syntaxTo ≤ offset + s.length ∧ a.kind = AnnKind.comment := by
  intro fuel
  induction fuel with
  | zero => intro i a h; exact absurd h (by simp [commentScanAux])
  | succ fuel ih =>
    intro i a h
    unfold commentScanAux at h
    cases hs : commentSearch s i with
    | none => rw [hs] at h; exact absurd h (by simp)
    | some r =>
      obtain ⟨m, p, q⟩ := r
      rw [hs] at h
      obtain ⟨him, hmatch⟩ := commentSearch_elim hs
      obtain ⟨hmp, hpq, hql⟩ := commentMatchAt_bounds hmatch
      rcases List.mem_cons.mp h with rfl | htail
      · obtain ⟨hf, ht, hk⟩ := mkCommentAnn_fields offset hmp hpq
        rw [hf, ht, hk]
        refine ⟨by omega, by omega, by omega, rfl⟩
      · obtain ⟨h1, h2, h3, h4⟩ := ih htail
        exact ⟨by omega, h2, h3, h4⟩

theorem commentScanAux_chain {s : List Char} {offset : Nat} :
    ∀ {fuel i : Nat},
      List.Pairwise (fun a b => a.syntaxTo ≤ b.syntaxFrom)
        (commentScanAux s offset i fuel) := by
  intro fuel
  induction fuel with
  | zero => intro i; simp [commentScanAux]
  | succ fuel ih =>
    intro i
    unfold commentScanAux
    cases hs : commentSearch s i with
    | none => simp
    | some r =>
      obtain ⟨m, p, q⟩ := r
      obtain ⟨him, hmatch⟩ := commentSearch_elim hs
      obtain ⟨hmp, hpq, hql⟩ := commentMatchAt_bounds hmatch
      refine List.pairwise_cons.mpr ⟨?_, ih⟩
      intro b hb
      obtain ⟨hb1, _, _, _⟩ := commentScanAux_bounds hb
      obtain ⟨_, ht, _⟩ := mkCommentAnn_fields offset hmp hpq
      rw [ht]
      omega

theorem commentScan_bounds {s : List Char} {offset : Nat} {a : Ann}
    (h : a ∈ commentScan s offset) :
    offset ≤ a.syntaxFrom ∧ a.syntaxFrom + 6 ≤ a.syntaxTo ∧
      a.syntaxTo ≤ offset + s.length ∧ a.kind = AnnKind.comment := by
  obtain ⟨h1, h2, h3, h4⟩ := commentScanAux_bounds h
  exact ⟨by omega, h2, h3, h4⟩

theorem commentScan_chain {s : List Char} {offset : Nat} :
    List.Pairwise (fun a b => a.syntaxTo ≤ b.syntaxFrom) (commentScan s offset) :=
  commentScanAux_chain

/-! ### Mask match / search / scan lemmas -/

theorem maskMatchAt_elim {s : List Char} {m q : Nat}
    (h : maskMatchAt s m = some q) :
    occursAt maskOpen s m = true ∧ findFrom maskClose s (m + 2) = some q := by
  unfold maskMatchAt at h
  split at h
  · rename_i hocc
    exact ⟨hocc, h⟩
  · exact absurd h (by simp)

theorem maskMatchAt_bounds {s : List Char} {m q : Nat}
    (h : maskMatchAt s m = some q) : m + 2 ≤ q ∧ q + 2 ≤ s.length := by
  obtain ⟨h1, h2⟩ := maskMatchAt_elim h
  obtain ⟨hq, hqo⟩ := findFrom_some_elim h2
  have := occursAt_length_le (by simp [maskClose]) hqo
  simp [maskClose] at this
  exact ⟨hq, by omega⟩

theorem maskMatchAt_none_of_not_open {s : List Char} {m : Nat}
    (h : occursAt maskOpen s m = false) : maskMatchAt s m = none := by
  unfold maskMatchAt
  simp [h]

theorem maskMatchAt_none_of_ge_length {s : List Char} {m : Nat}
    (h : s.length ≤ m) : maskMatchAt s m = none :=
  maskMatchAt_none_of_not_open (occursAt_ge_length (by simp [maskOpen]) h)

theorem maskSearchAux_elim {s : List Char} :
    ∀ {fuel i m q : Nat}, maskSearchAux s i fuel = some (m, q) →
      i ≤ m ∧ maskMatchAt s m = some q := by
  intro fuel
  induction fuel with
  | zero => intro i m q h; exact absurd h (by simp [maskSearchAux])
  | succ fuel ih =>
    intro i m q h
    unfold maskSearchAux at h
    cases hm : maskMatchAt s i with
    | some r =>
      rw [hm] at h
      injection h with h
      injection h with h1 h2
      subst h1; subst h2
      exact ⟨Nat.le_refl _, hm⟩
    | none =>
      rw [hm] at h
      obtain ⟨h1, h2⟩ := ih h
      exact ⟨by omega, h2⟩

theorem maskSearchAux_intro {s : List Char} {m q : Nat}
    (hm : maskMatchAt s m = some q) :
    ∀ {fuel i : Nat}, i ≤ m → m < i + fuel →
      (∀ k, i ≤ k → k < m → maskMatchAt s k = none) →
      maskSearchAux s i fuel = some (m, q) := by
  intro fuel
  induction fuel with
  | zero => intro i h1 h2 _; omega
  | succ fuel ih =>
    intro i h1 h2 hmin
    unfold maskSearchAux
    rcases Nat.eq_or_lt_of_le h1 with rfl | hlt
    · rw [hm]
    · rw [hmin i (Nat.le_refl _) hlt]
      exact ih hlt (by omega) (fun k hk1 hk2 => hmin k (by omega) hk2)

theorem maskSearchAux_none {s : List Char} :
    ∀ {fuel i : Nat}, (∀ k, i ≤ k → maskMatchAt s k = none) →
      maskSearchAux s i fuel = none := by
  intro fuel
  induction fuel with
  | zero => intro i _; rfl
  | succ fuel ih =>
    intro i h
    unfold maskSearchAux
    rw [h i (Nat.le_refl _)]
    exact ih (fun k hk => h k (by omega))

theorem maskSearch_elim {s : List Char} {i m q : Nat}
    (h : maskSearch s i = some (m, q)) : i ≤ m ∧ maskMatchAt s m = some q :=
  maskSearchAux_elim h

theorem maskSearch_intro {s : List Char} {i m q : Nat}
    (hm : maskMatchAt s m = some q) (h1 : i ≤ m)
    (hmin : ∀ k, i ≤ k → k < m → maskMatchAt s k = none) :
    maskSearch s i = some (m, q) := by
  obtain ⟨_, hq⟩ := maskMatchAt_bounds hm
  exact maskSearchAux_intro hm h1 (by omega) hmin

theorem maskSearch_none {s : List Char} {i : Nat}
    (h : ∀ k, i ≤ k → maskMatchAt s k = none) : maskSearch s i = none :=
  maskSearchAux_none h

theorem mkMaskAnn_fields {s : List Char} {m q : Nat} (offset : Nat)
    (hmq : m + 2 ≤ q) :
    (mkMaskAnn s offset m q).syntaxFrom = offset + m ∧
    (mkMaskAnn s offset m q).syntaxTo = offset + q + 2 ∧
    (mkMaskAnn s offset m q).kind = AnnKind.mask := by
  unfold mkMaskAnn
  refine ⟨rfl, ?_, rfl⟩
  simp only
  omega

theorem maskScanAux_bounds {s : List Char} {offset : Nat} :
    ∀ {fuel i : Nat} {a : Ann}, a ∈ maskScanAux s offset i fuel →
      offset + i ≤ a.syntaxFrom ∧ a.syntaxFrom + 4 ≤ a.syntaxTo ∧
        a.syntaxTo ≤ offset + s.length ∧ a.kind = AnnKind.mask := by
  intro fuel
  induction fuel with
  | zero => intro i a h; exact absurd h (by simp [maskScanAux])
  | succ fuel ih =>
    intro i a h
    unfold maskScanAux at h
    cases hs : maskSearch s i with
    | none => rw [hs] at h; exact absurd h (by simp)
    | some r =>
      obtain ⟨m, q⟩ := r
      rw [hs] at h
      obtain ⟨him, hmatch⟩ := maskSearch_elim hs
      obtain ⟨hmq, hql⟩ := maskMatchAt_bounds hmatch
      rcases List.mem_cons.mp h with rfl | htail
      · obtain ⟨hf, ht, hk⟩ := mkMaskAnn_fields offset hmq
        rw [hf, ht, hk]
        refine ⟨by omega, by omega, by omega, rfl⟩
      · obtain ⟨h1, h2, h3, h4⟩ := ih htail
        exact ⟨by omega, h2, h3, h4⟩

theorem maskScanAux_chain {s : List Char} {offset : Nat} :
    ∀ {fuel i : Nat},
      List.Pairwise (fun a b => a.syntaxTo ≤ b.syntaxFrom)
        (maskScanAux s offset i fuel) := by
  intro fuel
  induction fuel with
  | zero => intro i; simp [maskScanAux]
  | succ fuel ih =>
    intro i
    unfold maskScanAux
    cases hs : maskSearch s i with
    | none => simp
    | some r =>
      obtain ⟨m, q⟩ := r
      obtain ⟨him, hmatch⟩ := maskSearch_elim hs
      obtain ⟨hmq, hql⟩ := maskMatchAt_bounds hmatch
      refine List.pairwise_cons.mpr ⟨?_, ih⟩
      intro b hb
      obtain ⟨hb1, _, _, _⟩ := maskScanAux_bounds hb
      obtain ⟨_, ht, _⟩ := mkMaskAnn_fields offset hmq
      rw [ht]
      omega

theorem maskScan_bounds {s : List Char} {offset : Nat} {a : Ann}
    (h : a ∈ maskScan s offset) :
    offset ≤ a.syntaxFrom ∧ a.syntaxFrom + 4 ≤ a.syntaxTo ∧
      a.syntaxTo ≤ offset + s.length ∧ a.kind = AnnKind.mask := by
  obtain ⟨h1, h2, h3, h4⟩ := maskScanAux_bounds h
  exact ⟨by omega, h2, h3, h4⟩

theorem maskScan_chain {s : List Char} {offset : Nat} :
    List.Pairwise (fun a b => a.syntaxTo ≤ b.syntaxFrom) (maskScan s offset) :=
  maskScanAux_chain

/-! ### Per-line and per-document structure lemmas -/

theorem parseLine_bounds {l : List Char} {offset : Nat} {a : Ann}
    (h : a ∈ parseAnnotationsFromLine l offset) :
    offset ≤ a.syntaxFrom ∧ a.syntaxFrom < a.syntaxTo ∧
      a.syntaxTo ≤ offset + l.length := by
  rcases List.mem_append.mp h with hc | hm
  · obtain ⟨h1, h2, h3, _⟩ := commentScan_bounds hc
    exact ⟨h1, by omega, h3⟩
  · obtain ⟨h1, h2, h3, _⟩ := maskScan_bounds hm
    exact ⟨h1, by omega, h3⟩

theorem parseLine_pairwise_same_kind {l : List Char} {offset : Nat} :
    List.Pairwise (fun a b => a.kind = b.kind → ¬ spansOverlap a b)
      (parseAnnotationsFromLine l offset) := by
  unfold parseAnnotationsFromLine
  rw [List.pairwise_append]
  refine ⟨?_, ?_, ?_⟩
  · exact commentScan_chain.imp (by
      intro a b hab _
      unfold spansOverlap
      omega)
  · exact maskScan_chain.imp (by
      intro a b hab _
      unfold spansOverlap
      omega)
  · intro a ha b hb hkind
    obtain ⟨_, _, _, hka⟩ := commentScan_bounds ha
    obtain ⟨_, _, _, hkb⟩ := maskScan_bounds hb
    rw [hka, hkb] at hkind
    exact absurd hkind (by simp)

theorem parseLines_lb :
    ∀ {lines : List (List Char)} {offset : Nat} {a : Ann},
      a ∈ parseLines lines offset → offset ≤ a.syntaxFrom := by
  intro lines
  induction lines with
  | nil => intro offset a h; exact absurd h (by simp [parseLines])
  | cons l ls ih =>
    intro offset a h
    unfold parseLines at h
    rcases List.mem_append.mp h with h1 | h2
    · exact (parseLine_bounds h1).1
    · have := ih h2
      omega

theorem parseLines_pairwise_same_kind :
    ∀ {lines : List (List Char)} {offset : Nat},
      List.Pairwise (fun a b => a.kind = b.kind → ¬ spansOverlap a b)
        (parseLines lines offset) := by
  intro lines
  induction lines with
  | nil => intro offset; simp [parseLines]
  | cons l ls ih =>
    intro offset
    unfold parseLines
    rw [List.pairwise_append]
    refine ⟨parseLine_pairwise_same_kind, ih, ?_⟩
    intro a ha b hb _
    obtain ⟨_, _, ha3⟩ := parseLine_bounds ha
    have hb1 := parseLines_lb hb
    unfold spansOverlap
    omega

/-! ### Sorting lemmas -/

theorem insertAnn_perm (x : Ann) : ∀ (l : List Ann), (insertAnn x l).Perm (x :: l) := by
  intro l
  induction l with
  | nil => simp [insertAnn]
  | cons y ys ih =>
    unfold insertAnn
    split
    · exact ((ih.cons y).trans (List.Perm.swap x y ys)).symm.symm
    · exact List.Perm.refl _

theorem sortAnns_perm : ∀ (l : List Ann), (sortAnns l).Perm l := by
  intro l
  induction l with
  | nil => simp [sortAnns]
  | cons x xs ih =>
    unfold sortAnns
    exact (insertAnn_perm x (sortAnns xs)).trans (ih.cons x)

theorem spansOverlap_symm {a b : Ann} (h : spansOverlap a b) : spansOverlap b a := by
  unfold spansOverlap at h ⊢
  omega

/-- Claim C2 (counterexample): on the input `~===x::y===~` — a mask whose
payload text itself matches comment syntax — the whole-document parse,
sorted by `syntaxFrom`, contains two entries (a mask and a comment) whose
`[syntaxFrom, syntaxTo)` intervals overlap, so the cross-kind non-overlap
asserted by the claim is false. -/
theorem claim2_counterexample :
    ¬ List.Pairwise (fun a b => ¬ spansOverlap a b)
      (sortAnns (parseAnnotations "~===x::y===~".toList)) := by
  decide

/-- Claim C2 (amended): for every input text, the annotation list returned
by the whole-document parse, once sorted by `syntaxFrom`, contains no two
entries of the SAME kind whose `[syntaxFrom, syntaxTo)` intervals overlap;
entries of different kinds may overlap (e.g. a mask whose payload matches
comment syntax). -/
theorem claim2_amended (docText : List Char) :
    List.Pairwise (fun a b => a.kind = b.kind → ¬ spansOverlap a b)
      (sortAnns (parseAnnotations docText)) := by
  have hp : (sortAnns (parseAnnotations docText)).Perm (parseAnnotations docText) :=
    sortAnns_perm _
  have hsymm : ∀ {x y : Ann}, (x.kind = y.kind → ¬ spansOverlap x y) →
      (y.kind = x.kind → ¬ spansOverlap y x) := by
    intro x y h hk hov
    exact h hk.symm (spansOverlap_symm hov)
  exact (List.Perm.pairwise_iff hsymm hp).mpr parseLines_pairwise_same_kind

/-- Claim C3 (code bug, evaluated): feeding the Decoration Builder the
collector's own sorted output for the document `~===x::y===~` (full
visible range, live preview on, empty selection) yields `builder.add`
calls whose `from` positions are `[0, 2, 10, 1, 7, 8]` — not in the
strictly increasing order the host's `RangeSetBuilder` requires, because
the mask's span strictly contains the overlapping comment's span. -/
theorem claim3_bug_eval :
    (buildDecorations DEFAULT_SETTINGS (some true) []
        (collectAnnotations "~===x::y===~".toList [(0, 12)])).map Directive.dFrom
      = [0, 2, 10, 1, 7, 8]
    ∧ ¬ List.Pairwise (fun a b : Nat => a < b)
        ((buildDecorations DEFAULT_SETTINGS (some true) []
            (collectAnnotations "~===x::y===~".toList [(0, 12)])).map Directive.dFrom) := by
  constructor
  · decide
  · decide

/-- Claim C4: an annotation is classified cursor-inside exactly when some
selection range `[rFrom, rTo]` is fully contained in
`[syntaxFrom, syntaxTo]` (inclusive both ends); in particular a selection
equal to the annotation's `[from, to]` is cursor-inside (for the
parser-guaranteed well-formed field order), a selection lying entirely
outside `[syntaxFrom, syntaxTo]` is not; and the predicate ignores the
annotation's kind, i.e. it is the same test for comments and masks. -/
theorem claim4_spec (sel : List (Nat × Nat)) (ann : Ann) (r : Nat × Nat)
    (hwf : ann.syntaxFrom ≤ ann.from_ ∧ ann.to_ ≤ ann.syntaxTo)
    (hr : r.1 ≤ r.2) :
    (cursorInside sel ann = true ↔
      ∃ p ∈ sel, ann.syntaxFrom ≤ p.1 ∧ p.2 ≤ ann.syntaxTo)
    ∧ cursorInside [(ann.from_, ann.to_)] ann = true
    ∧ ((r.2 < ann.syntaxFrom ∨ ann.syntaxTo < r.1) → cursorInside [r] ann = false)
    ∧ (∀ k1 k2 : AnnKind,
        cursorInside sel { ann with kind := k1 } = cursorInside sel { ann with kind := k2 }) := by
  refine ⟨?_, ?_, ?_, ?_⟩
  · simp [cursorInside, List.any_eq_true]
  · simp [cursorInside]
    omega
  · intro hout
    simp [cursorInside]
    omega
  · intro k1 k2
    rfl

/-- Claim C4 witness: concrete annotation `==n::ab==` at offset 0
(`syntaxFrom 0`, payload `[5,7)`, `syntaxTo 9`): the selection `(5,7)`
equal to the payload is cursor-inside, and the selection `(12,14)` lying
entirely beyond `syntaxTo` is not. -/
theorem claim4_witness :
    ((0:Nat) ≤ 5 ∧ (7:Nat) ≤ 9) ∧ (12:Nat) ≤ 14
    ∧ cursorInside [(5, 7)] ⟨AnnKind.comment, 5, 7, ['n'], 0, 9⟩ = true
    ∧ cursorInside [(12, 14)] ⟨AnnKind.comment, 5, 7, ['n'], 0, 9⟩ = false :=
  ⟨⟨by decide, by decide⟩, by decide,
    (claim4_spec [(5, 7)] ⟨AnnKind.comment, 5, 7, ['n'], 0, 9⟩ (12, 14)
      ⟨by decide, by decide⟩ (by decide)).2.1,
    (claim4_spec [(5, 7)] ⟨AnnKind.comment, 5, 7, ['n'], 0, 9⟩ (12, 14)
      ⟨by decide, by decide⟩ (by decide)).2.2.1 (Or.inr (by decide))⟩

/-- Claim C6 (counterexample): on the line `~=a=~ ==b::c==` the mask
appears first in the text (`syntaxFrom 0`) but `parseAnnotationsFromLine`
returns the comment (`syntaxFrom 6`) first, so the returned list is not in
left-to-right order of appearance. -/
theorem claim6_counterexample :
    (parseAnnotationsFromLine "~=a=~ ==b::c==".toList 0).map Ann.syntaxFrom = [6, 0]
    ∧ ¬ List.Pairwise (fun a b : Nat => a ≤ b)
        ((parseAnnotationsFromLine "~=a=~ ==b::c==".toList 0).map Ann.syntaxFrom) := by
  constructor
  · decide
  · decide

/-- Claim C6 (amended): `parseAnnotationsFromLine` returns all comment
occurrences (in left-to-right order) followed by all mask occurrences (in
left-to-right order): the two scans are each strictly ascending and
non-overlapping in `syntaxFrom`, but the concatenation puts every comment
before every mask regardless of textual position. -/
theorem claim6_amended (l : List Char) (offset : Nat) :
    parseAnnotationsFromLine l offset = commentScan l offset ++ maskScan l offset
    ∧ List.Pairwise (fun a b => a.syntaxFrom < b.syntaxFrom ∧ a.syntaxTo ≤ b.syntaxFrom)
        (commentScan l offset)
    ∧ List.Pairwise (fun a b => a.syntaxFrom < b.syntaxFrom ∧ a.syntaxTo ≤ b.syntaxFrom)
        (maskScan l offset)
    ∧ (∀ a ∈ commentScan l offset, a.kind = AnnKind.comment)
    ∧ (∀ a ∈ maskScan l offset, a.kind = AnnKind.mask) := by
  refine ⟨rfl, ?_, ?_, ?_, ?_⟩
  · refine List.Pairwise.imp_of_mem ?_ commentScan_chain
    intro a b ha _ hab
    obtain ⟨_, h2, _, _⟩ := commentScan_bounds ha
    exact ⟨by omega, hab⟩
  · refine List.Pairwise.imp_of_mem ?_ maskScan_chain
    intro a b ha _ hab
    obtain ⟨_, h2, _, _⟩ := maskScan_bounds ha
    exact ⟨by omega, hab⟩
  · intro a ha
    exact (commentScan_bounds ha).2.2.2
  · intro a ha
    exact (maskScan_bounds ha).2.2.2

/-! ### Decoration Builder lemmas -/

theorem annDecos_plain (sel : List (Nat × Nat)) (a : Ann) :
    annDecos false sel a
      = [⟨a.from_, a.to_,
          match a.kind with
          | AnnKind.comment => Deco.markComment a.comment
          | AnnKind.mask => Deco.markMask⟩] := by
  unfold annDecos
  cases a.kind <;> simp

/-- Claim C8: when the mode-flag read fails (`lpField = none`, modelling
`view.state.field(editorLivePreviewField)` throwing), `buildDecorations`
returns exactly the plain/source-mode output — one highlight/blur mark
over each annotation's `[from, to)` — and emits no hidden-marker
(replace) directive. -/
theorem claim8_spec (settings : AnnotationPluginSettings) (sel : List (Nat × Nat))
    (anns : List Ann) :
    buildDecorations settings none sel anns = buildDecorations settings (some false) sel anns
    ∧ buildDecorations settings none sel anns
        = anns.map (fun a => ⟨a.from_, a.to_,
            match a.kind with
            | AnnKind.comment => Deco.markComment a.comment
            | AnnKind.mask => Deco.markMask⟩)
    ∧ ∀ d ∈ buildDecorations settings none sel anns, d.deco ≠ Deco.hiddenMarker := by
  have hmap : buildDecorations settings none sel anns
      = anns.map (fun a => ⟨a.from_, a.to_,
          match a.kind with
          | AnnKind.comment => Deco.markComment a.comment
          | AnnKind.mask => Deco.markMask⟩) := by
    show (anns.map (annDecos false sel)).flatten
        = anns.map (fun a => ⟨a.from_, a.to_,
            match a.kind with
            | AnnKind.comment => Deco.markComment a.comment
            | AnnKind.mask => Deco.markMask⟩)
    induction anns with
    | nil => rfl
    | cons a as ih =>
      simp only [List.map_cons, List.flatten_cons]
      rw [annDecos_plain, ih]
      rfl
  refine ⟨rfl, hmap, ?_⟩
  rw [hmap]
  intro d hd
  obtain ⟨a, _, rfl⟩ := List.mem_map.mp hd
  cases a.kind <;> simp

/-- Claim C10: `buildDecorations` receives the plugin settings but never
reads them — for any two settings values and identical remaining inputs
it returns the same directive sequence (settings only influence the
injected CSS custom properties, not decoration structure). -/
theorem claim10_spec (s1 s2 : AnnotationPluginSettings) (lpField : Option Bool)
    (sel : List (Nat × Nat)) (anns : List Ann) :
    buildDecorations s1 lpField sel anns = buildDecorations s2 lpField sel anns := rfl

/-! ### Tooltip edit lemmas -/

theorem drop_append_exact {α : Type} {X Y : List α} {n : Nat} (h : X.length = n) :
    (X ++ Y).drop n = Y := by
  subst h
  exact List.drop_left X Y

/-- Claim C7: on confirmed edit, the edit callback is invoked with the
trimmed new content exactly when that trimmed content is non-empty and
differs from the prior content (otherwise the prior content is kept and no
callback runs); and the callback issues exactly one replacement of
`[syntaxFrom, from)` by `==<newtext>::`, which leaves the document from
position `from` on — the payload text and everything after it —
untouched. -/
theorem claim7_spec (initial rawInput : List Char) (ann : Ann) (nc docText : List Char)
    (hlen : ann.syntaxFrom ≤ docText.length) :
    ((saveChanges initial rawInput).1 = some (trimJs rawInput) ↔
      (trimJs rawInput ≠ [] ∧ trimJs rawInput ≠ initial))
    ∧ ((saveChanges initial rawInput).1 = none → (saveChanges initial rawInput).2 = initial)
    ∧ onSaveChange ann nc = (ann.syntaxFrom, ann.from_, commentOpen ++ nc ++ commentSep)
    ∧ (applyEdit docText ann.syntaxFrom ann.from_ (commentOpen ++ nc ++ commentSep)).drop
        (ann.syntaxFrom + (nc.length + 4)) = docText.drop ann.from_ := by
  refine ⟨?_, ?_, rfl, ?_⟩
  · by_cases hc : trimJs rawInput ≠ [] ∧ trimJs rawInput ≠ initial
    · simp [saveChanges, hc]
    · simp only [saveChanges, if_neg hc]
      simpa using hc
  · by_cases hc : trimJs rawInput ≠ [] ∧ trimJs rawInput ≠ initial
    · simp [saveChanges, hc]
    · simp [saveChanges, hc]
  · unfold applyEdit
    rw [List.append_assoc
          (docText.take ann.syntaxFrom) (commentOpen ++ nc ++ commentSep)
          (docText.drop ann.from_),
        ← List.append_assoc
          (docText.take ann.syntaxFrom) (commentOpen ++ nc ++ commentSep)
          (docText.drop ann.from_)]
    apply drop_append_exact
    rw [List.length_append, List.length_take, List.length_append, List.length_append]
    simp [commentOpen, commentSep]
    omega

/-- Claim C7 witness: editing the comment of `==note::hello==`
(`syntaxFrom 0`, `from 8`) with textarea content `"  new  "`: the trimmed
content `new` is non-empty and differs from `note`, so the callback is
invoked with it, and the issued replacement turns the document into
`==new::hello==`, leaving `hello==` (everything from `from`) intact. -/
theorem claim7_witness :
    ((0 : Nat) ≤ ("==note::hello==".toList).length)
    ∧ (saveChanges "note".toList "  new  ".toList).1 = some (trimJs "  new  ".toList)
    ∧ (applyEdit "==note::hello==".toList 0 8
        (commentOpen ++ "new".toList ++ commentSep)).drop (0 + ("new".toList.length + 4))
        = "==note::hello==".toList.drop 8 :=
  ⟨by decide,
    (claim7_spec "note".toList "  new  ".toList
        ⟨AnnKind.comment, 8, 13, "note".toList, 0, 15⟩ "new".toList
        "==note::hello==".toList (by decide)).1.mpr ⟨by decide, by decide⟩,
    (claim7_spec "note".toList "  new  ".toList
        ⟨AnnKind.comment, 8, 13, "note".toList, 0, 15⟩ "new".toList
        "==note::hello==".toList (by decide)).2.2.2⟩

/-! ### Newline-splitting lemmas -/

/-- Inverse of `splitNl`: re-join the split lines with `'\n'`. -/
def joinNl : List (List Char) → List Char
  | [] => []
  | l :: ls =>
    match ls with
    | [] => l
    | _ :: _ => l ++ '\n' :: joinNl ls

theorem splitNl_ne_nil : ∀ (s : List Char), splitNl s ≠ [] := by
  intro s
  cases s with
  | nil => simp [splitNl]
  | cons c rest =>
    unfold splitNl
    split
    · simp
    · split <;> simp

theorem joinNl_splitNl : ∀ (s : List Char), joinNl (splitNl s) = s := by
  intro s
  induction s with
  | nil => rfl
  | cons c rest ih =>
    unfold splitNl
    by_cases hc : c = '\n'
    · rw [if_pos hc]
      cases hrest : splitNl rest with
      | nil => exact absurd hrest (splitNl_ne_nil rest)
      | cons m ms =>
        unfold joinNl
        simp only
        rw [← hrest, ih, hc]
        rfl
    · rw [if_neg hc]
      cases hrest : splitNl rest with
      | nil => exact absurd hrest (splitNl_ne_nil rest)
      | cons m ms =>
        rw [hrest] at ih
        cases ms with
        | nil =>
          unfold joinNl
          simp only
          unfold joinNl at ih
          simp only at ih
          rw [ih]
        | cons m2 ms2 =>
          unfold joinNl
          simp only
          unfold joinNl at ih
          simp only at ih
          rw [List.cons_append, ih]

theorem splitNl_no_nl : ∀ (s : List Char), ∀ l ∈ splitNl s, '\n' ∉ l := by
  intro s
  induction s with
  | nil =>
    intro l hl
    simp [splitNl] at hl
    subst hl
    simp
  | cons c rest ih =>
    intro l hl
    unfold splitNl at hl
    by_cases hc : c = '\n'
    · rw [if_pos hc] at hl
      rcases List.mem_cons.mp hl with rfl | h
      · simp
      · exact ih l h
    · rw [if_neg hc] at hl
      cases hrest : splitNl rest with
      | nil => exact absurd hrest (splitNl_ne_nil rest)
      | cons m ms =>
        rw [hrest] at hl
        rcases List.mem_cons.mp hl with rfl | h
        · intro hmem
          rcases List.mem_cons.mp hmem with h1 | h2
          · exact hc h1.symm
          · exact ih m (by rw [hrest]; exact List.mem_cons_self m ms) h2
        · exact ih l (by rw [hrest]; exact List.mem_cons_of_mem m h)

theorem splitNl_of_no_nl : ∀ (s : List Char), '\n' ∉ s → splitNl s = [s] := by
  intro s
  induction s with
  | nil => intro _; rfl
  | cons c rest ih =>
    intro h
    unfold splitNl
    have hc : ¬ c = '\n' := by
      intro hc
      exact h (by rw [hc]; exact List.mem_cons_self _ _)
    rw [if_neg hc, ih (fun hm => h (List.mem_cons_of_mem c hm))]

theorem parseLines_ub :
    ∀ {lines : List (List Char)} {offset : Nat} {a : Ann},
      a ∈ parseLines lines offset → a.syntaxTo ≤ offset + (joinNl lines).length := by
  intro lines
  induction lines with
  | nil =>
    intro offset a ha
    exact absurd ha (by simp [parseLines])
  | cons l ls ih =>
    intro offset a ha
    unfold parseLines at ha
    rcases List.mem_append.mp ha with hline | hrest
    · obtain ⟨_, _, hb3⟩ := parseLine_bounds hline
      cases ls with
      | nil => exact hb3
      | cons l2 ls2 =>
        have : (joinNl (l :: l2 :: ls2)).length
            = l.length + 1 + (joinNl (l2 :: ls2)).length := by
          show (l ++ '\n' :: joinNl (l2 :: ls2)).length = _
          simp
          omega
        omega
    · cases ls with
      | nil => exact absurd hrest (by simp [parseLines])
      | cons l2 ls2 =>
        have hih := ih hrest
        have : (joinNl (l :: l2 :: ls2)).length
            = l.length + 1 + (joinNl (l2 :: ls2)).length := by
          show (l ++ '\n' :: joinNl (l2 :: ls2)).length = _
          simp
          omega
        omega

theorem parseLines_no_nl :
    ∀ {lines : List (List Char)} {offset : Nat} {a : Ann} {k : Nat},
      (∀ l ∈ lines, '\n' ∉ l) → a ∈ parseLines lines offset →
      a.syntaxFrom ≤ k → k < a.syntaxTo → (joinNl lines)[k - offset]? ≠ some '\n' := by
  intro lines
  induction lines with
  | nil =>
    intro offset a k _ ha
    exact absurd ha (by simp [parseLines])
  | cons l ls ih =>
    intro offset a k hnl ha h1 h2
    unfold parseLines at ha
    have hlnl : '\n' ∉ l := hnl l (List.mem_cons_self _ _)
    rcases List.mem_append.mp ha with hline | hrest
    · obtain ⟨hb1, hb2, hb3⟩ := parseLine_bounds hline
      have hk1 : offset ≤ k := by omega
      have hk2 : k - offset < l.length := by omega
      have hget : (joinNl (l :: ls))[k - offset]? = l[k - offset]? := by
        cases ls with
        | nil => rfl
        | cons l2 ls2 =>
          show (l ++ '\n' :: joinNl (l2 :: ls2))[k - offset]? = l[k - offset]?
          rw [List.getElem?_append]
          rw [if_pos hk2]
      rw [hget]
      intro hsome
      rcases List.getElem?_eq_some.mp hsome with ⟨hw, he⟩
      exact hlnl (he ▸ List.getElem_mem hw)
    · cases ls with
      | nil => exact absurd hrest (by simp [parseLines])
      | cons l2 ls2 =>
        have hlb := parseLines_lb hrest
        have hk3 : offset + l.length + 1 ≤ k := by omega
        have hget : (joinNl (l :: l2 :: ls2))[k - offset]?
            = (joinNl (l2 :: ls2))[k - (offset + l.length + 1)]? := by
          show (l ++ '\n' :: joinNl (l2 :: ls2))[k - offset]? = _
          rw [List.getElem?_append, if_neg (by omega)]
          have : k - offset - l.length = (k - (offset + l.length + 1)) + 1 := by omega
          rw [this, List.getElem?_cons_succ]
        rw [hget]
        exact ih (fun l' hl' => hnl l' (List.mem_cons_of_mem l hl')) hrest h1 h2

/-- Claim C5 (counterexample): the comment syntax `==a::b\nc==`, whose
payload spans a literal newline, is recognized when the text is fed to
the per-line parser unsplit, but both the whole-document entry point
`parseAnnotations` and the visible-range collector split at every newline
first, so neither returns any annotation for it. -/
theorem claim5_counterexample :
    parseAnnotations "==a::b\nc==".toList = []
    ∧ collectAnnotations "==a::b\nc==".toList [(0, 10)] = []
    ∧ parseAnnotationsFromLine "==a::b\nc==".toList 0 ≠ [] := by
  refine ⟨?_, ?_, ?_⟩
  · decide
  · decide
  · decide

/-- Claim C5 (amended): both the whole-document entry point
(`parseAnnotations`) and the visible-range collector
(`collectAnnotations`, for any set of visible ranges) split their input
at every newline before invoking the per-line parser, so an annotation
whose syntax would span a literal newline is never recognized on these
paths: every annotation either of them returns has a syntax span
`[syntaxFrom, syntaxTo)` containing no newline character of the
document. -/
theorem claim5_amended (docText : List Char) (ranges : List (Nat × Nat)) (a : Ann)
    (ha : a ∈ parseAnnotations docText ∨ a ∈ collectAnnotations docText ranges) (k : Nat)
    (h1 : a.syntaxFrom ≤ k) (h2 : k < a.syntaxTo) :
    docText[k]? ≠ some '\n' := by
  rcases ha with ha | ha
  · unfold parseAnnotations at ha
    have := parseLines_no_nl (splitNl_no_nl docText) ha h1 h2
    rw [joinNl_splitNl] at this
    simpa using this
  · unfold collectAnnotations at ha
    rw [(sortAnns_perm _).mem_iff, List.mem_flatten] at ha
    obtain ⟨anns, hanns, hmem⟩ := ha
    rw [List.mem_map] at hanns
    obtain ⟨r, _, rfl⟩ := hanns
    have hlb := parseLines_lb hmem
    have hub := parseLines_ub hmem
    rw [joinNl_splitNl] at hub
    have hchar := parseLines_no_nl (splitNl_no_nl (sliceDoc docText r.1 r.2)) hmem h1 h2
    rw [joinNl_splitNl] at hchar
    have hslice : (sliceDoc docText r.1 r.2)[k - r.1]? = docText[k]? := by
      unfold sliceDoc
      rw [List.getElem?_drop, show r.1 + (k - r.1) = k by omega, List.getElem?_take]
      have hk2 : k < r.2 ⊓ docText.length := by
        have hl1 : (sliceDoc docText r.1 r.2).length
            = r.2 ⊓ docText.length - r.1 := by
          unfold sliceDoc
          rw [List.length_drop, List.length_take]
        rw [hl1] at hub
        omega
      rw [if_pos (by omega)]
    rw [hslice] at hchar
    exact hchar

/-- Claim C5 witness: the document `==a::b==` yields, on both the
whole-document path and the collector path over the full visible range,
the one annotation with syntax span `[0, 8)`; position 3 lies inside it
and indeed holds `':'`, not a newline. -/
theorem claim5_witness :
    (⟨AnnKind.comment, 5, 6, ['a'], 0, 8⟩ : Ann) ∈ parseAnnotations "==a::b==".toList
    ∧ (⟨AnnKind.comment, 5, 6, ['a'], 0, 8⟩ : Ann)
        ∈ collectAnnotations "==a::b==".toList [(0, 8)]
    ∧ (0 : Nat) ≤ 3 ∧ (3 : Nat) < 8
    ∧ "==a::b==".toList[3]? ≠ some '\n' :=
  ⟨by decide, by decide, by decide, by decide,
    claim5_amended "==a::b==".toList [(0, 8)] ⟨AnnKind.comment, 5, 6, ['a'], 0, 8⟩
      (Or.inr (by decide)) 3 (by decide) (by decide)⟩

/-! ### Scan step lemmas and the comment round trip -/

theorem commentScanAux_step_some {s : List Char} {off i fuel m p q : Nat}
    (h : commentSearch s i = some (m, p, q)) :
    commentScanAux s off i (fuel + 1)
      = mkCommentAnn s off m p q :: commentScanAux s off (q + 2) fuel := by
  simp only [commentScanAux, h]

theorem commentScanAux_step_none {s : List Char} {off i fuel : Nat}
    (h : commentSearch s i = none) :
    commentScanAux s off i (fuel + 1) = [] := by
  simp only [commentScanAux, h]

theorem occursAt_at_append (pat X Y : List Char) :
    occursAt pat (X ++ (pat ++ Y)) X.length = true := by
  unfold occursAt
  rw [List.drop_left]
  exact List.isPrefixOf_iff_prefix.mpr (List.prefix_append pat Y)

/-- Claim C1 (counterexample): for the text `==note::hello==` at offset 0
the parser returns `syntaxTo = 15` (`o + 6 + |C| + |T|`: two-character
markers `==`, `::`, `==` total six characters), not the claimed
`o + 4 + |C| + |T| = 13`. -/
theorem claim1_counterexample :
    (parseAnnotationsFromLine "==note::hello==".toList 0).map Ann.syntaxTo = [15]
    ∧ (15 : Nat) ≠ 0 + 4 + "note".toList.length + "hello".toList.length := by
  constructor
  · decide
  · decide

/-- Claim C1 (amended): for every text `A ++ == ++ C ++ :: ++ T ++ == ++ B`
containing exactly one well-formed comment `==C::T==` at offset
`o = off + |A|` (no `==` before it, the first `::` after the opening
marker is the one ending `C`, the first `==` after the separator is the
one ending `T`, and no comment match follows it), the per-line parse
returns exactly one Comment annotation, with `syntaxFrom = o`,
`from = o + 2 + |C| + 2`, `to = from + |T|`, `comment = C`, and
`syntaxTo = o + 6 + |C| + |T|` (amended from the claimed
`o + 4 + |C| + |T|`); the whole-document parse agrees whenever the text
contains no newline. -/
theorem claim1_amended (off : Nat) (A C T B : List Char)
    (hA : ∀ k, k < A.length →
      occursAt commentOpen (A ++ commentOpen ++ C ++ commentSep ++ T ++ commentOpen ++ B) k
        = false)
    (hC : ∀ j, j < C.length →
      occursAt commentSep (A ++ commentOpen ++ C ++ commentSep ++ T ++ commentOpen ++ B)
        (A.length + 2 + j) = false)
    (hT : ∀ j, j < T.length →
      occursAt commentOpen (A ++ commentOpen ++ C ++ commentSep ++ T ++ commentOpen ++ B)
        (A.length + 4 + C.length + j) = false)
    (hB : ∀ m, m < (A ++ commentOpen ++ C ++ commentSep ++ T ++ commentOpen ++ B).length →
      A.length + 6 + C.length + T.length ≤ m →
      commentMatchAt (A ++ commentOpen ++ C ++ commentSep ++ T ++ commentOpen ++ B) m
        = none) :
    ((parseAnnotationsFromLine (A ++ commentOpen ++ C ++ commentSep ++ T ++ commentOpen ++ B)
        off).filter (fun a => a.kind == AnnKind.comment)
      = [{ kind := AnnKind.comment,
           from_ := off + A.length + 2 + C.length + 2,
           to_ := off + A.length + 2 + C.length + 2 + T.length,
           comment := C,
           syntaxFrom := off + A.length,
           syntaxTo := off + A.length + 6 + C.length + T.length }])
    ∧ ('\n' ∉ (A ++ commentOpen ++ C ++ commentSep ++ T ++ commentOpen ++ B) →
        (parseAnnotations (A ++ commentOpen ++ C ++ commentSep ++ T ++ commentOpen ++ B)).filter
            (fun a => a.kind == AnnKind.comment)
          = [{ kind := AnnKind.comment,
               from_ := 0 + A.length + 2 + C.length + 2,
               to_ := 0 + A.length + 2 + C.length + 2 + T.length,
               comment := C,
               syntaxFrom := 0 + A.length,
               syntaxTo := 0 + A.length + 6 + C.length + T.length }]) := by
  set s := A ++ commentOpen ++ C ++ commentSep ++ T ++ commentOpen ++ B with hs
  have hslen : s.length = A.length + C.length + T.length + B.length + 6 := by
    simp [hs, commentOpen, commentSep]
    omega
  -- the three marker occurrences
  have hoccA : occursAt commentOpen s A.length = true := by
    have e : s = A ++ (commentOpen ++ (C ++ (commentSep ++ (T ++ (commentOpen ++ B))))) := by
      simp [hs, List.append_assoc]
    rw [e]
    exact occursAt_at_append commentOpen A _
  have hoccSep : occursAt commentSep s (A.length + 2 + C.length) = true := by
    have e : s = (A ++ commentOpen ++ C) ++ (commentSep ++ (T ++ (commentOpen ++ B))) := by
      simp [hs, List.append_assoc]
    have lX : (A ++ commentOpen ++ C).length = A.length + 2 + C.length := by
      simp [commentOpen]
      omega
    rw [e, ← lX]
    exact occursAt_at_append commentSep (A ++ commentOpen ++ C) _
  have hoccCl : occursAt commentOpen s (A.length + 4 + C.length + T.length) = true := by
    have e : s = (A ++ commentOpen ++ C ++ commentSep ++ T) ++ (commentOpen ++ B) := by
      simp [hs, List.append_assoc]
    have lX : (A ++ commentOpen ++ C ++ commentSep ++ T).length
        = A.length + 4 + C.length + T.length := by
      simp [commentOpen, commentSep]
      omega
    rw [e, ← lX]
    exact occursAt_at_append commentOpen (A ++ commentOpen ++ C ++ commentSep ++ T) _
  -- the two findFrom results
  have hfsep : findFrom commentSep s (A.length + 2) = some (A.length + 2 + C.length) := by
    refine findFrom_intro (by omega) hoccSep ?_
    intro k hk1 hk2
    have := hC (k - (A.length + 2)) (by omega)
    rwa [show A.length + 2 + (k - (A.length + 2)) = k by omega] at this
  have hfcl : findFrom commentOpen s (A.length + 2 + C.length + 2)
      = some (A.length + 4 + C.length + T.length) := by
    refine findFrom_intro (by omega) hoccCl ?_
    intro k hk1 hk2
    have := hT (k - (A.length + 4 + C.length)) (by omega)
    rwa [show A.length + 4 + C.length + (k - (A.length + 4 + C.length)) = k by omega] at this
  -- the match at the comment's offset
  have hmatch : commentMatchAt s A.length
      = some (A.length + 2 + C.length, A.length + 4 + C.length + T.length) := by
    unfold commentMatchAt
    rw [if_pos hoccA, hfsep]
    show (match findFrom commentOpen s (A.length + 2 + C.length + 2) with
          | some q => some (A.length + 2 + C.length, q)
          | none => none)
        = some (A.length + 2 + C.length, A.length + 4 + C.length + T.length)
    rw [hfcl]
  have hsearch0 : commentSearch s 0
      = some (A.length, A.length + 2 + C.length, A.length + 4 + C.length + T.length) :=
    commentSearch_intro hmatch (by omega)
      (fun k _ hk => commentMatchAt_none_of_not_open (hA k hk))
  have hsearchEnd : commentSearch s (A.length + 4 + C.length + T.length + 2) = none := by
    apply commentSearch_none
    intro k hk
    by_cases hkl : k < s.length
    · exact hB k hkl (by omega)
    · exact commentMatchAt_none_of_ge_length (by omega)
  -- the extracted groups
  have hexC : extract s (A.length + 2) (A.length + 2 + C.length) = C := by
    have e : s = (A ++ commentOpen) ++ C ++ (commentSep ++ (T ++ (commentOpen ++ B))) := by
      simp [hs, List.append_assoc]
    have lX : (A ++ commentOpen).length = A.length + 2 := by simp [commentOpen]
    rw [e, ← lX, show (A ++ commentOpen).length + C.length
        = (A ++ commentOpen).length + C.length from rfl]
    exact extract_boundary (A ++ commentOpen) C _
  have hexT : extract s (A.length + 2 + C.length + 2) (A.length + 4 + C.length + T.length)
      = T := by
    have e : s = (A ++ commentOpen ++ C ++ commentSep) ++ T ++ (commentOpen ++ B) := by
      simp [hs, List.append_assoc]
    have lX : (A ++ commentOpen ++ C ++ commentSep).length = A.length + 2 + C.length + 2 := by
      simp [commentOpen, commentSep]
      omega
    have lX2 : A.length + 4 + C.length + T.length
        = (A ++ commentOpen ++ C ++ commentSep).length + T.length := by
      rw [lX]
      omega
    rw [e, ← lX, lX2]
    exact extract_boundary (A ++ commentOpen ++ C ++ commentSep) T _
  -- the single-element comment scan, for an arbitrary offset
  have hscan : ∀ off' : Nat, commentScan s off'
      = [{ kind := AnnKind.comment,
           from_ := off' + A.length + 2 + C.length + 2,
           to_ := off' + A.length + 2 + C.length + 2 + T.length,
           comment := C,
           syntaxFrom := off' + A.length,
           syntaxTo := off' + A.length + 6 + C.length + T.length }] := by
    intro off'
    unfold commentScan
    have hfuel : s.length + 1 = (s.length - 1) + 1 + 1 := by omega
    rw [hfuel, commentScanAux_step_some hsearch0,
      commentScanAux_step_none (by
        rw [show A.length + 4 + C.length + T.length + 2
            = A.length + 4 + C.length + T.length + 2 from rfl]
        exact hsearchEnd)]
    unfold mkCommentAnn
    simp only [hexC, hexT, List.cons.injEq, and_true]
    rw [Ann.mk.injEq]
    refine ⟨rfl, by omega, by omega, rfl, by omega, by omega⟩
  have hmain : ∀ off' : Nat,
      (parseAnnotationsFromLine s off').filter (fun a => a.kind == AnnKind.comment)
        = [{ kind := AnnKind.comment,
             from_ := off' + A.length + 2 + C.length + 2,
             to_ := off' + A.length + 2 + C.length + 2 + T.length,
             comment := C,
             syntaxFrom := off' + A.length,
             syntaxTo := off' + A.length + 6 + C.length + T.length }] := by
    intro off'
    unfold parseAnnotationsFromLine
    rw [List.filter_append, hscan off']
    have h1 : List.filter (fun a => a.kind == AnnKind.comment)
        [({ kind := AnnKind.comment,
            from_ := off' + A.length + 2 + C.length + 2,
            to_ := off' + A.length + 2 + C.length + 2 + T.length,
            comment := C,
            syntaxFrom := off' + A.length,
            syntaxTo := off' + A.length + 6 + C.length + T.length } : Ann)]
        = [{ kind := AnnKind.comment,
             from_ := off' + A.length + 2 + C.length + 2,
             to_ := off' + A.length + 2 + C.length + 2 + T.length,
             comment := C,
             syntaxFrom := off' + A.length,
             syntaxTo := off' + A.length + 6 + C.length + T.length }] := by
      simp [List.filter]
    have h2 : List.filter (fun a => a.kind == AnnKind.comment) (maskScan s off') = [] := by
      rw [List.filter_eq_nil_iff]
      intro a ha
      have := (maskScan_bounds ha).2.2.2
      simp [this]
    rw [h1, h2, List.append_nil]
  refine ⟨hmain off, ?_⟩
  intro hnl
  unfold parseAnnotations
  rw [splitNl_of_no_nl s hnl]
  unfold parseLines
  unfold parseLines
  rw [List.append_nil]
  exact hmain 0

/-- Claim C1 witness: the text `x==note::hello==y` (so `A = "x"`,
`C = "note"`, `T = "hello"`, `B = "y"`) at line offset 3: all four
uniqueness hypotheses hold by computation and the parse returns the single
Comment annotation with `syntaxFrom = 4`, `from = 12`, `to = 17`,
`syntaxTo = 19`. -/
theorem claim1_witness :
    occursAt commentOpen ("x".toList ++ commentOpen ++ "note".toList ++ commentSep ++
        "hello".toList ++ commentOpen ++ "y".toList) 0 = false
    ∧ (parseAnnotationsFromLine ("x".toList ++ commentOpen ++ "note".toList ++ commentSep ++
          "hello".toList ++ commentOpen ++ "y".toList) 3).filter
          (fun a => a.kind == AnnKind.comment)
        = [{ kind := AnnKind.comment, from_ := 12, to_ := 17, comment := "note".toList,
             syntaxFrom := 4, syntaxTo := 19 }] :=
  ⟨by decide,
    by
      have h := (claim1_amended 3 "x".toList "note".toList "hello".toList "y".toList
        (by decide) (by decide) (by decide) (by decide)).1
      simpa using h⟩

/-! ### Editor command lemmas -/

theorem maskScanAux_step_some {s : List Char} {off i fuel m q : Nat}
    (h : maskSearch s i = some (m, q)) :
    maskScanAux s off i (fuel + 1)
      = mkMaskAnn s off m q :: maskScanAux s off (q + 2) fuel := by
  simp only [maskScanAux, h]

theorem maskScanAux_step_none {s : List Char} {off i fuel : Nat}
    (h : maskSearch s i = none) :
    maskScanAux s off i (fuel + 1) = [] := by
  simp only [maskScanAux, h]

theorem occursAt_suffix (pat X : List Char) :
    occursAt pat (X ++ pat) X.length = true := by
  unfold occursAt
  rw [List.drop_left]
  exact List.isPrefixOf_iff_prefix.mpr List.prefix_rfl

theorem commentMatchAt_none_of_no_sep {s : List Char} {m : Nat}
    (h : ∀ k, occursAt commentSep s k = false) : commentMatchAt s m = none := by
  by_cases ho : occursAt commentOpen s m
  · unfold commentMatchAt
    rw [if_pos ho, findFrom_none_intro (fun k _ => h k)]
  · exact commentMatchAt_none_of_not_open (by simpa using ho)

theorem getElem?_maskClose_ne_colon (j : Nat) : maskClose[j]? ≠ some ':' := by
  rcases j with _ | _ | d <;> simp [maskClose]

theorem getElem?_maskClose_ne_tilde0 : maskClose[0]? ≠ some '~' := by
  simp [maskClose]

/-- Claim C9 (counterexample): for the selection `hello` the
`add-comment-to-selection` command inserts `=hello::批注=` — a single `=`
on each side — which is not well-formed comment syntax: parsing the
inserted text yields no annotation at all, not one Comment annotation. -/
theorem claim9_counterexample :
    parseAnnotationsFromLine (wrapComment "hello".toList) 0 = ([] : List Ann)
    ∧ parseAnnotations (wrapComment "hello".toList) = ([] : List Ann) := by
  constructor
  · decide
  · decide

/-- Claim C9 (amended): the wrap-in-mask command replaces the selection
`s` with `~=s=~`, and parsing the inserted text yields exactly one Mask
annotation (payload `[2, 2+|s|)`, syntax span `[0, |s|+4)`) whenever `s`
contains no `~` and no `::`; the wrap-in-comment command instead inserts
`=t::批注=` — with a single `=` on each side, the `批注` placeholder being
left selected for renaming — which is not well-formed comment syntax:
parsing it yields no annotation (for `t` containing no `=` and no `~`). -/
theorem claim9_amended (s t : List Char)
    (hsna : '~' ∉ s)
    (hsep : ∀ k, k < s.length → occursAt commentSep s k = false)
    (htna : '~' ∉ t) (htne : '=' ∉ t) :
    parseAnnotationsFromLine (wrapMask s) 0
      = [{ kind := AnnKind.mask, from_ := 2, to_ := 2 + s.length, comment := [],
           syntaxFrom := 0, syntaxTo := s.length + 4 }]
    ∧ parseAnnotationsFromLine (wrapComment t) 0 = [] := by
  constructor
  · -- the wrap-in-mask insertion round-trips to one Mask annotation
    have hwdef : wrapMask s = '~' :: '=' :: (s ++ maskClose) := rfl
    have hwlen : (wrapMask s).length = s.length + 4 := by
      simp [wrapMask, maskOpen, maskClose]
      try omega
    have hidx : ∀ j : Nat, (wrapMask s)[j + 2]? = (s ++ maskClose)[j]? := by
      intro j
      rw [hwdef, show j + 2 = (j + 1) + 1 from rfl, List.getElem?_cons_succ,
        List.getElem?_cons_succ]
    -- no `::` occurs anywhere in `~=s=~`
    have hnosep : ∀ k, occursAt commentSep (wrapMask s) k = false := by
      intro k
      cases hocc : occursAt commentSep (wrapMask s) k with
      | false => rfl
      | true =>
        exfalso
        obtain ⟨h1, h2⟩ := (occursAt_pair ':' ':' _ k).mp hocc
        match k with
        | 0 => rw [hwdef] at h1; simp at h1
        | 1 => rw [hwdef] at h1; simp at h1
        | (j + 2) =>
          rw [hidx j] at h1
          rw [show j + 2 + 1 = (j + 1) + 2 from rfl, hidx (j + 1)] at h2
          rw [List.getElem?_append] at h1 h2
          by_cases hj : j < s.length
          · rw [if_pos hj] at h1
            by_cases hj1 : j + 1 < s.length
            · rw [if_pos hj1] at h2
              have : occursAt commentSep s j = true :=
                (occursAt_pair ':' ':' s j).mpr ⟨h1, h2⟩
              rw [hsep j hj] at this
              exact absurd this (by simp)
            · rw [if_neg hj1, show j + 1 - s.length = 0 by omega] at h2
              simp [maskClose] at h2
          · rw [if_neg hj] at h1
            exact getElem?_maskClose_ne_colon (j - s.length) h1
    -- the first `=~` after position 2 closes the mask at `|s| + 2`
    have hoccCl : occursAt maskClose (wrapMask s) (s.length + 2) = true := by
      have e : wrapMask s = (maskOpen ++ s) ++ maskClose := by
        simp [wrapMask, List.append_assoc]
      have lX : (maskOpen ++ s).length = s.length + 2 := by
        simp [maskOpen]
        try omega
      rw [e, ← lX]
      exact occursAt_suffix maskClose (maskOpen ++ s)
    have hmin : ∀ k, 2 ≤ k → k < s.length + 2 →
        occursAt maskClose (wrapMask s) k = false := by
      intro k hk1 hk2
      cases hocc : occursAt maskClose (wrapMask s) k with
      | false => rfl
      | true =>
        exfalso
        obtain ⟨h1, h2⟩ := (occursAt_pair '=' '~' _ k).mp hocc
        obtain ⟨j, rfl⟩ : ∃ j, k = j + 2 := ⟨k - 2, by omega⟩
        rw [show j + 2 + 1 = (j + 1) + 2 from rfl, hidx (j + 1)] at h2
        rw [List.getElem?_append] at h2
        by_cases hj1 : j + 1 < s.length
        · rw [if_pos hj1] at h2
          rcases List.getElem?_eq_some.mp h2 with ⟨hw, he⟩
          exact hsna (he ▸ List.getElem_mem hw)
        · rw [if_neg hj1, show j + 1 - s.length = 0 by omega] at h2
          exact getElem?_maskClose_ne_tilde0 h2
    have hmatch : maskMatchAt (wrapMask s) 0 = some (s.length + 2) := by
      unfold maskMatchAt
      rw [if_pos (show occursAt maskOpen (wrapMask s) 0 = true from
        occursAt_at_append maskOpen [] (s ++ maskClose))]
      exact findFrom_intro (by omega) hoccCl (fun k hk1 hk2 => hmin k hk1 (by omega))
    have hsearch0 : maskSearch (wrapMask s) 0 = some (0, s.length + 2) :=
      maskSearch_intro hmatch (by omega) (fun k hk1 hk2 => by omega)
    have hsearchEnd : maskSearch (wrapMask s) (s.length + 2 + 2) = none := by
      apply maskSearch_none
      intro k hk
      exact maskMatchAt_none_of_ge_length (by omega)
    have hext : extract (wrapMask s) 2 (s.length + 2) = s := by
      unfold extract
      rw [show (wrapMask s).drop 2 = s ++ maskClose from by rw [hwdef]; rfl,
        show s.length + 2 - 2 = s.length by omega, List.take_left]
    unfold parseAnnotationsFromLine
    have hcscan : commentScan (wrapMask s) 0 = [] := by
      unfold commentScan
      rw [show (wrapMask s).length + 1 = (wrapMask s).length + 1 from rfl]
      exact commentScanAux_step_none
        (commentSearch_none (fun k _ => commentMatchAt_none_of_no_sep hnosep))
    have hmscan : maskScan (wrapMask s) 0
        = [{ kind := AnnKind.mask, from_ := 2, to_ := 2 + s.length, comment := [],
             syntaxFrom := 0, syntaxTo := s.length + 4 }] := by
      unfold maskScan
      rw [hwlen, show s.length + 4 + 1 = (s.length + 3) + 1 + 1 from rfl,
        maskScanAux_step_some hsearch0, maskScanAux_step_none hsearchEnd]
      unfold mkMaskAnn
      simp only [hext, List.cons.injEq, and_true]
      rw [Ann.mk.injEq]
      refine ⟨rfl, by omega, by omega, rfl, by omega, by omega⟩
    rw [hcscan, hmscan, List.nil_append]
  · -- the wrap-in-comment insertion parses to nothing
    have hwdef : wrapComment t
        = '=' :: (t ++ (':' :: ':' :: '批' :: '注' :: '=' :: [])) := rfl
    have hidx : ∀ j : Nat,
        (wrapComment t)[j + 1]? = (t ++ (':' :: ':' :: '批' :: '注' :: '=' :: []))[j]? := by
      intro j
      rw [hwdef, List.getElem?_cons_succ]
    have hnoopen : ∀ k, occursAt commentOpen (wrapComment t) k = false := by
      intro k
      cases hocc : occursAt commentOpen (wrapComment t) k with
      | false => rfl
      | true =>
        exfalso
        obtain ⟨h1, h2⟩ := (occursAt_pair '=' '=' _ k).mp hocc
        match k with
        | 0 =>
          rw [show (0:Nat) + 1 = 0 + 1 from rfl, hidx 0, List.getElem?_append] at h2
          by_cases hj : 0 < t.length
          · rw [if_pos hj] at h2
            rcases List.getElem?_eq_some.mp h2 with ⟨hw, he⟩
            exact htne (he ▸ List.getElem_mem hw)
          · rw [if_neg hj] at h2
            simp at h2
        | (j + 1) =>
          rw [hidx j, List.getElem?_append] at h1
          by_cases hj : j < t.length
          · rw [if_pos hj] at h1
            rcases List.getElem?_eq_some.mp h1 with ⟨hw, he⟩
            exact htne (he ▸ List.getElem_mem hw)
          · rw [if_neg hj] at h1
            have h5 : j - t.length = 4 := by
              rcases hd : j - t.length with _ | _ | _ | _ | _ | d
              · rw [hd] at h1; simp at h1
              · rw [hd] at h1; simp at h1
              · rw [hd] at h1; simp at h1
              · rw [hd] at h1; simp at h1
              · rfl
              · rw [hd] at h1; simp at h1
            rw [show j + 1 + 1 = (j + 1) + 1 from rfl, hidx (j + 1),
              List.getElem?_append, if_neg (by omega),
              show j + 1 - t.length = 5 by omega] at h2
            simp at h2
    have hnotilde : ∀ k, occursAt maskOpen (wrapComment t) k = false := by
      intro k
      cases hocc : occursAt maskOpen (wrapComment t) k with
      | false => rfl
      | true =>
        exfalso
        obtain ⟨h1, _⟩ := (occursAt_pair '~' '=' _ k).mp hocc
        match k with
        | 0 => rw [hwdef] at h1; simp at h1
        | (j + 1) =>
          rw [hidx j, List.getElem?_append] at h1
          by_cases hj : j < t.length
          · rw [if_pos hj] at h1
            rcases List.getElem?_eq_some.mp h1 with ⟨hw, he⟩
            exact htna (he ▸ List.getElem_mem hw)
          · rw [if_neg hj] at h1
            rcases hd : j - t.length with _ | _ | _ | _ | _ | d <;>
              rw [hd] at h1 <;> simp at h1
    unfold parseAnnotationsFromLine
    have hcscan : commentScan (wrapComment t) 0 = [] := by
      unfold commentScan
      exact commentScanAux_step_none
        (commentSearch_none
          (fun k _ => commentMatchAt_none_of_not_open (hnoopen k)))
    have hmscan : maskScan (wrapComment t) 0 = [] := by
      unfold maskScan
      exact maskScanAux_step_none
        (maskSearch_none (fun k _ => maskMatchAt_none_of_not_open (hnotilde k)))
    rw [hcscan, hmscan, List.nil_append]

/-- Claim C9 witness: for the selections `secret` and `hello` (which
contain no `~`, `::` or `=`), the inserted `~=secret=~` parses to exactly
one Mask annotation with payload `[2, 8)` and syntax span `[0, 10)`, and
the inserted `=hello::批注=` parses to nothing. -/
theorem claim9_witness :
    ('~' ∉ "secret".toList)
    ∧ ('=' ∉ "hello".toList)
    ∧ parseAnnotationsFromLine (wrapMask "secret".toList) 0
        = [{ kind := AnnKind.mask, from_ := 2, to_ := 2 + "secret".toList.length,
             comment := [], syntaxFrom := 0, syntaxTo := "secret".toList.length + 4 }]
    ∧ parseAnnotationsFromLine (wrapComment "hello".toList) 0 = [] :=
  ⟨by decide, by decide,
    (claim9_amended "secret".toList "hello".toList
      (by decide) (by decide) (by decide) (by decide)).1,
    (claim9_amended "secret".toList "hello".toList
      (by decide) (by decide) (by decide) (by decide)).2⟩
